import Mathlib

/-!
Shallow embedding of `src/term-heval.cpp`, the command-line driver of the
holdem-eval program.  The driver parses options (board, dead, monte-carlo,
margin, time limit), validates the hand-range arguments, runs the external
OMPEval equity engine, and prints the results.

The external collaborators (OMPEval's `CardRange`, `CardRange::getCardMask`,
`EquityCalculator`, and `std::stod`) are not part of the given source; they
are modelled from the spec's interface description (§6) as abstract inputs:
a range argument is represented by its already-expanded combination list, a
board/dead argument by its parse outcome, a margin/time argument by the
outcome of the numeric parse, and the engine by a function parameter.
Everything the driver itself does is translated line by line from
`term-heval.cpp`.
-/

deriving instance DecidableEq for Except

namespace TermHeval

/-- A card: one of 52 distinct values, as a bit position (source: one bit of
a `uint64_t` card mask). -/
abbrev Card := Fin 52

/-- A card mask: the set of cards whose bits are set in a `uint64_t`
bitmask.  Only the 52 valid positions can ever be set, so a finite set over
`Fin 52` is a faithful model. -/
abbrev CardSet := Finset Card

/-- Modelled from the spec: the input to the external parser
`CardRange::getCardMask` (spec §6, `parseCardMask`).  A board/dead argument
string is represented by its length in characters (`raw_len`) and its parse
outcome: `none` when the string is malformed (the parser then returns the
zero mask), or `some cs` with `cs` the list of cards it denotes. -/
structure CardStr where
  raw_len : Nat
  tokens : Option (List Card)
deriving DecidableEq

/-- The card mask the external parser returns for a board/dead argument:
the zero mask (empty set) on a malformed string, the denoted card set
otherwise. -/
def maskOf (s : CardStr) : CardSet :=
  match s.tokens with
  | none => ∅
  | some cs => cs.toFinset

/-- Modelled from the spec: a well-formed card-list string writes each card
as exactly two characters (e.g. `As`) and lists each card once, so its
length is twice its card count. -/
def CardStr.WF (s : CardStr) : Prop :=
  match s.tokens with
  | none => True
  | some cs => s.raw_len = 2 * cs.length ∧ cs.Nodup

/-- Modelled from the spec: a hand-range argument (spec §6,
`expandRangeSpec`): the original string `raw` together with the list of
2-card combinations the external `CardRange` parser expands it to (empty
when the string is empty or malformed). -/
structure RangeStr where
  raw : String
  combos : List CardSet
deriving DecidableEq

/-- Modelled from the spec: the outcome of `std::stod` on a margin or
time-limit argument: a parsed rational value, an out-of-range failure
(`std::out_of_range`), or a non-numeric failure (`std::invalid_argument`). -/
inductive StodResult where
  | ok (q : ℚ)
  | outOfRange
  | invalid
deriving DecidableEq

/-- The error conditions the driver can fail with, one constructor per
`fail_prog` call site (and one for the `assert` at line 175). -/
inductive ErrKind where
  | invalidBoard
  | invalidDead
  | boardTooLong
  | marginOutOfRange
  | marginInvalid
  | timeOutOfRange
  | timeInvalid
  | infiniteSim
  | tooFewRanges
  | tooManyRanges
  | badRange (raw : String)
  | assertPlayers
deriving DecidableEq

/-- The exact diagnostic string each error is reported with (the argument
of the corresponding `fail_prog` call in the source). -/
def msgOf : ErrKind → String
  | .invalidBoard => "invalid board argument"
  | .invalidDead => "invalid dead argument"
  | .boardTooLong => "board has too many cards"
  | .marginOutOfRange => "Error margin out of range"
  | .marginInvalid => "Invalid error margin argument"
  | .timeOutOfRange => "Maximum time out of range (use -t 0 for no time limit)"
  | .timeInvalid => "Invalid maximum time argument"
  | .infiniteSim => "infinite simulation queried (set time limit, error margin or disable monte-carlo)"
  | .tooFewRanges => "less than 2 hand ranges"
  | .tooManyRanges => "more than 10 hand ranges"
  | .badRange raw => "range " ++ raw ++ " invalid"
  | .assertPlayers => "Assertion failed: range_strs.size() == r.players"

/-- Source function `fail_prog` (lines 32-35): prints the diagnostic to stderr in
this exact format and exits with the failure status. -/
def failOutput (e : ErrKind) : String :=
  "term-heval: error: " ++ msgOf e ++ "."

/-- Source function `get_cardmask` (lines 69-81): fails when the parsed bitmask is
zero (malformed string), then, for a board, when the string is longer than
10 characters; otherwise returns the bitmask. -/
def get_cardmask (cards : CardStr) (board : Bool) : Except ErrKind CardSet :=
  if maskOf cards = ∅ then
    if board then .error .invalidBoard else .error .invalidDead
  else if board ∧ cards.raw_len > 10 then .error .boardTooLong
  else .ok (maskOf cards)

/-- The per-range loop of `get_ranges_from_argv` (source lines 51-60):
fails at the first range whose combination list is empty. -/
def check_ranges : List RangeStr → Except ErrKind Unit
  | [] => .ok ()
  | r :: rest =>
    if r.combos.isEmpty then .error (.badRange r.raw)
    else check_ranges rest

/-- Source function `get_ranges_from_argv` (lines 47-62): fails on fewer than 2 or
more than 10 ranges, then on any range whose combination list is empty;
otherwise returns the ranges. -/
def get_ranges_from_argv (range_strings : List RangeStr) :
    Except ErrKind (List RangeStr) :=
  if range_strings.length < 2 then .error .tooFewRanges
  else if range_strings.length > 10 then .error .tooManyRanges
  else
    match check_ranges range_strings with
    | .error e => .error e
    | .ok _ => .ok range_strings

/-- One command-line option, as delivered by the `getopt_long` loop
(source lines 88-143). -/
inductive Opt where
  | debugFlag
  | helpFlag
  | mc
  | board (s : CardStr)
  | dead (s : CardStr)
  | margin (p : StodResult)
  | timeLimit (p : StodResult)
deriving DecidableEq

/-- The driver's option state (source lines 85-87 and the global `debug`
flag, line 28). -/
structure Config where
  board : CardSet
  dead : CardSet
  monte_carlo : Bool
  err_margin : ℚ
  time_max : ℚ
  debug : Bool
deriving DecidableEq

/-- The defaults set before option processing (source lines 85-87, 28):
empty board and dead sets, Monte Carlo off, margin 1e-3, time limit 30. -/
def defaultConfig : Config :=
  { board := ∅, dead := ∅, monte_carlo := false,
    err_margin := 1/1000, time_max := 30, debug := false }

/-- One iteration of the option loop (the `switch` at source lines
103-142): each option either updates the state or fails the program. -/
def processOpt (cfg : Config) : Opt → Except ErrKind Config
  | .debugFlag => .ok { cfg with debug := true }
  | .helpFlag => .ok cfg
  | .mc => .ok { cfg with monte_carlo := true }
  | .board s =>
    match get_cardmask s true with
    | .error e => .error e
    | .ok m => .ok { cfg with board := m }
  | .dead s =>
    match get_cardmask s false with
    | .error e => .error e
    | .ok m => .ok { cfg with dead := m }
  | .margin p =>
    match p with
    | .ok q => .ok { cfg with err_margin := q }
    | .outOfRange => .error .marginOutOfRange
    | .invalid => .error .marginInvalid
  | .timeLimit p =>
    match p with
    | .ok q => .ok { cfg with time_max := q }
    | .outOfRange => .error .timeOutOfRange
    | .invalid => .error .timeInvalid

/-- The whole option loop: the options in command-line order, folded over
the state, stopping at the first failure. -/
def processOpts (opts : List Opt) : Except ErrKind Config :=
  opts.foldlM processOpt defaultConfig

/-- Modelled from the spec: the engine's published result (spec §3,
`EquityResult`; the fields are exactly those the driver reads from
`eq.getResults()`): player count, per-player equity array, progress
fraction, standard-deviation estimate, elapsed time, and the flag
indicating whether exhaustive enumeration was used. -/
structure EquityResult where
  players : Nat
  equity : List ℚ
  progress : ℚ
  stdev : ℚ
  time : ℚ
  enumerateAll : Bool
deriving DecidableEq

/-- The external equity engine as the driver sees it (spec §6): from the
expanded ranges, board, dead, Monte Carlo flag, margin, and time limit
(`eq.setTimeLimit`; `eq.start`; `eq.wait`) to a published result.  The
driver is parametric in this function; theorems quantify over it. -/
abbrev EngineFn :=
  List (List CardSet) → CardSet → CardSet → Bool → ℚ → ℚ → EquityResult

/-- One line of the driver's normal output (source lines 176-203), with
the numeric payload kept symbolic. -/
inductive OutLine where
  | header (players : Nat)
  | equityLine (raw : String) (value : ℚ)
  | completedLine (t : ℚ)
  | timedOutLine (t : ℚ)
  | mcHint
deriving DecidableEq

/-- Source expression `round(x*10)/10` (line 188): the elapsed time rounded to the
tenths place. -/
def calcTime (r : EquityResult) : ℚ :=
  ((round (r.time * 10) : ℤ) : ℚ) / 10

/-- The result-printing block (source lines 175-203): the `assert` that
the player count equals the number of range arguments (`none` on failure),
the header, one equity line per player pairing the i-th range string with
`r.equity[i]`, then the completion or timeout report, the latter followed
by the `--mc` hint when `r.enumerateAll` is set. -/
def printResults (range_strs : List RangeStr) (r : EquityResult) :
    Option (List OutLine) :=
  if range_strs.length = r.players then
    some (OutLine.header r.players ::
      ((List.range r.players).map fun i =>
        OutLine.equityLine ((range_strs.getD i ⟨"", []⟩).raw)
          (r.equity.getD i 0)) ++
      (if r.progress ≥ 1 then [OutLine.completedLine (calcTime r)]
       else OutLine.timedOutLine (calcTime r) ::
         (if r.enumerateAll then [OutLine.mcHint] else [])))
  else none

/-- The tail of `main` after the engine has run: printing (with the
`assert` modelled as a distinct failure) and the final
`return EXIT_SUCCESS`. -/
def finishRun (range_strs : List RangeStr) (r : EquityResult) :
    Except ErrKind (List OutLine) :=
  match printResults range_strs r with
  | none => .error .assertPlayers
  | some lines => .ok lines

/-- Source function `main` (lines 83-206), parametric in the external engine:
option processing, the non-infinite check (line 145), range validation
(line 157), then the engine run and result printing.  An `.error e`
outcome is a `fail_prog (msgOf e)` call: diagnostic printed, exit with
failure status. -/
def runMain (engine : EngineFn) (opts : List Opt)
    (range_strs : List RangeStr) : Except ErrKind (List OutLine) :=
  match processOpts opts with
  | .error e => .error e
  | .ok cfg =>
    if cfg.monte_carlo ∧ cfg.err_margin = 0 ∧ cfg.time_max = 0 then
      .error .infiniteSim
    else
      match get_ranges_from_argv range_strs with
      | .error e => .error e
      | .ok ranges =>
        finishRun range_strs
          (engine (ranges.map fun r => r.combos) cfg.board cfg.dead
            cfg.monte_carlo cfg.err_margin cfg.time_max)

/-- The part of `main` strictly before the engine is constructed and
started (source lines 83-157): everything that can raise a configuration
error. -/
def preEngine (opts : List Opt) (range_strs : List RangeStr) :
    Except ErrKind (Config × List RangeStr) :=
  match processOpts opts with
  | .error e => .error e
  | .ok cfg =>
    if cfg.monte_carlo ∧ cfg.err_margin = 0 ∧ cfg.time_max = 0 then
      .error .infiniteSim
    else
      match get_ranges_from_argv range_strs with
      | .error e => .error e
      | .ok ranges => .ok (cfg, ranges)

/-- The process exit status of an outcome: `fail_prog` exits with
`EXIT_FAILURE` (1), the normal path returns `EXIT_SUCCESS` (0). -/
def exitStatus : Except ErrKind (List OutLine) → Nat
  | .error _ => 1
  | .ok _ => 0

/-- Modelled from the spec: an engine outcome of a completed exhaustive
run (progress 1, enumeration used), with one equity entry per range; used
only to instantiate the engine parameter at concrete inputs. -/
def okEngine : EngineFn := fun rs _ _ _ _ _ =>
  { players := rs.length, equity := List.replicate rs.length 0,
    progress := 1, stdev := 0, time := 0, enumerateAll := true }

/-- Modelled from the spec: an engine outcome of an exhaustive run cut off
by the time limit before finishing (spec §4.6: enumeration is chosen
whenever the remaining combination count is small, regardless of the Monte
Carlo flag; a run that hits its time budget publishes progress < 1), with
one equity entry per range. -/
def timeoutEngine : EngineFn := fun rs _ _ _ _ _ =>
  { players := rs.length, equity := List.replicate rs.length 0,
    progress := 1/2, stdev := 1/100, time := 30, enumerateAll := true }

/-- Concrete range argument: pocket aces, one combination. -/
def rAA : RangeStr := ⟨"AsAh", [{⟨51, by decide⟩, ⟨50, by decide⟩}]⟩

/-- Concrete range argument: pocket kings, one combination. -/
def rKK : RangeStr := ⟨"KsKh", [{⟨47, by decide⟩, ⟨46, by decide⟩}]⟩

/-- Concrete range argument whose string expands to no combinations. -/
def rEmpty : RangeStr := ⟨"xx", []⟩

/-- Concrete well-formed 3-card board argument containing card 51. -/
def bdAs : CardStr :=
  ⟨6, some [⟨51, by decide⟩, ⟨43, by decide⟩, ⟨39, by decide⟩]⟩

/-- Concrete option list supplying the board `bdAs`. -/
def opts3 : List Opt := [Opt.board bdAs]

/-- The configuration `opts3` produces. -/
def cfg3 : Config := { defaultConfig with board := maskOf bdAs }

/-- Concrete option list requesting Monte Carlo with margin 0 and time
limit 0. -/
def optsInf : List Opt := [Opt.mc, Opt.margin (.ok 0), Opt.timeLimit (.ok 0)]

/-- The configuration `optsInf` produces. -/
def cfgInf : Config :=
  { defaultConfig with monte_carlo := true, err_margin := 0, time_max := 0 }

/-- Concrete published result of a run cut off before convergence:
progress 0, exhaustive enumeration used. -/
def resTimeout : EquityResult :=
  { players := 2, equity := [0, 0], progress := 0, stdev := 0, time := 0,
    enumerateAll := true }

/-- The output lines the driver prints for `resTimeout` on ranges
`[rAA, rKK]`. -/
def linesTimeout : List OutLine :=
  [OutLine.header 2, .equityLine "AsAh" 0, .equityLine "KsKh" 0,
   .timedOutLine 0, .mcHint]

/-- Concrete published result of a completed run: progress 1. -/
def resOk : EquityResult :=
  { players := 2, equity := [0, 0], progress := 1, stdev := 0, time := 0,
    enumerateAll := true }

/-- The output lines the driver prints for `resOk` on ranges
`[rAA, rKK]`. -/
def linesOk : List OutLine :=
  [OutLine.header 2, .equityLine "AsAh" 0, .equityLine "KsKh" 0,
   .completedLine 0]

/-- The per-range loop accepts any list whose ranges all have at least one
combination. -/
theorem check_ranges_ok_of_nonempty :
    ∀ rs : List RangeStr, (∀ r ∈ rs, r.combos ≠ []) → check_ranges rs = .ok () := by
  intro rs h
  induction rs with
  | nil => rfl
  | cons r rest ih =>
    have hr : r.combos ≠ [] := h r (List.mem_cons_self r rest)
    have hrest : ∀ x ∈ rest, x.combos ≠ [] := fun x hx => h x (List.mem_cons_of_mem r hx)
    simp only [check_ranges, List.isEmpty_iff, if_neg hr]
    exact ih hrest

/-- The per-range loop fails whenever some range has no combinations. -/
theorem check_ranges_fails_of_empty :
    ∀ (rs : List RangeStr) (r : RangeStr), r ∈ rs → r.combos = [] →
      (check_ranges rs).isOk = false := by
  intro rs
  induction rs with
  | nil => intro r hmem _; exact absurd hmem (List.not_mem_nil r)
  | cons a rest ih =>
    intro r hmem hc
    unfold check_ranges
    split
    · rfl
    next hne =>
      rcases List.mem_cons.mp hmem with heq | hrest
      · subst heq; exact absurd (by simp [hc]) hne
      · exact ih r hrest hc

/-- The only errors the per-range loop can fail with are bad-range
errors. -/
theorem check_ranges_error_shape :
    ∀ (rs : List RangeStr) (e : ErrKind), check_ranges rs = .error e →
      ∃ raw, e = .badRange raw := by
  intro rs
  induction rs with
  | nil => intro e h; exact Except.noConfusion h
  | cons r rest ih =>
    intro e h
    unfold check_ranges at h
    split at h
    · injection h with h'
      exact ⟨r.raw, h'.symm⟩
    · exact ih e h

/-- Function `get_ranges_from_argv` fails whenever some range has no
combinations. -/
theorem get_ranges_fails_of_empty_mem :
    ∀ (rs : List RangeStr) (r : RangeStr), r ∈ rs → r.combos = [] →
      (get_ranges_from_argv rs).isOk = false := by
  intro rs r hmem hc
  unfold get_ranges_from_argv
  split
  · rfl
  · split
    · rfl
    · have hck := check_ranges_fails_of_empty rs r hmem hc
      cases hcr : check_ranges rs with
      | error e => rfl
      | ok u =>
        rw [hcr] at hck
        simp [Except.isOk, Except.toBool] at hck

/-- The only errors `get_ranges_from_argv` can fail with are the two
count errors and bad-range errors. -/
theorem get_ranges_error_shape :
    ∀ (rs : List RangeStr) (e : ErrKind), get_ranges_from_argv rs = .error e →
      e = .tooFewRanges ∨ e = .tooManyRanges ∨ ∃ raw, e = .badRange raw := by
  intro rs e h
  unfold get_ranges_from_argv at h
  split at h
  · injection h with h'; exact Or.inl h'.symm
  · split at h
    · injection h with h'; exact Or.inr (Or.inl h'.symm)
    · cases hcr : check_ranges rs with
      | error e' =>
        rw [hcr] at h
        injection h with h'
        subst h'
        exact Or.inr (Or.inr (check_ranges_error_shape rs _ hcr))
      | ok u => rw [hcr] at h; exact Except.noConfusion h

/-- A successful `get_cardmask` returns the parsed mask, and that mask is
non-zero. -/
theorem get_cardmask_ok :
    ∀ (s : CardStr) (b : Bool) (m : CardSet), get_cardmask s b = .ok m →
      m = maskOf s ∧ maskOf s ≠ ∅ := by
  intro s b m h
  unfold get_cardmask at h
  split at h
  next h0 => split at h <;> exact Except.noConfusion h
  next h0 =>
    split at h
    · exact Except.noConfusion h
    · injection h with h'
      exact ⟨h'.symm, h0⟩

/-- The `assert` failure is the only error of the result-printing stage. -/
theorem finishRun_error_shape :
    ∀ (rs : List RangeStr) (r : EquityResult) (e : ErrKind),
      finishRun rs r = .error e → e = .assertPlayers := by
  intro rs r e h
  unfold finishRun at h
  split at h
  · injection h with h'; exact h'.symm
  · exact Except.noConfusion h

/-- Successfully processing a `-b` option leaves a non-empty board. -/
theorem processOpt_board_set :
    ∀ (init mid : Config) (s : CardStr),
      processOpt init (.board s) = .ok mid → mid.board ≠ ∅ := by
  intro init mid s h
  simp only [processOpt] at h
  cases hg : get_cardmask s true with
  | error e => rw [hg] at h; exact Except.noConfusion h
  | ok m =>
    rw [hg] at h
    obtain ⟨hm, hne⟩ := get_cardmask_ok s true m hg
    injection h with h'
    subst h'
    simpa [hm] using hne

/-- Successfully processing a `-d` option leaves a non-empty dead set. -/
theorem processOpt_dead_set :
    ∀ (init mid : Config) (s : CardStr),
      processOpt init (.dead s) = .ok mid → mid.dead ≠ ∅ := by
  intro init mid s h
  simp only [processOpt] at h
  cases hg : get_cardmask s false with
  | error e => rw [hg] at h; exact Except.noConfusion h
  | ok m =>
    rw [hg] at h
    obtain ⟨hm, hne⟩ := get_cardmask_ok s false m hg
    injection h with h'
    subst h'
    simpa [hm] using hne

/-- No option other than `-b` changes the board. -/
theorem processOpt_board_other :
    ∀ (init mid : Config) (o : Opt), processOpt init o = .ok mid →
      (∀ s, o ≠ .board s) → mid.board = init.board := by
  intro init mid o h ho
  cases o with
  | board s => exact absurd rfl (ho s)
  | debugFlag => injection h with h'; subst h'; rfl
  | helpFlag => injection h with h'; subst h'; rfl
  | mc => injection h with h'; subst h'; rfl
  | dead s =>
    simp only [processOpt] at h
    split at h
    · exact Except.noConfusion h
    · injection h with h'; subst h'; rfl
  | margin p =>
    simp only [processOpt] at h
    split at h
    · injection h with h'; subst h'; rfl
    · exact Except.noConfusion h
    · exact Except.noConfusion h
  | timeLimit p =>
    simp only [processOpt] at h
    split at h
    · injection h with h'; subst h'; rfl
    · exact Except.noConfusion h
    · exact Except.noConfusion h

/-- No option other than `-d` changes the dead set. -/
theorem processOpt_dead_other :
    ∀ (init mid : Config) (o : Opt), processOpt init o = .ok mid →
      (∀ s, o ≠ .dead s) → mid.dead = init.dead := by
  intro init mid o h ho
  cases o with
  | dead s => exact absurd rfl (ho s)
  | debugFlag => injection h with h'; subst h'; rfl
  | helpFlag => injection h with h'; subst h'; rfl
  | mc => injection h with h'; subst h'; rfl
  | board s =>
    simp only [processOpt] at h
    split at h
    · exact Except.noConfusion h
    · injection h with h'; subst h'; rfl
  | margin p =>
    simp only [processOpt] at h
    split at h
    · injection h with h'; subst h'; rfl
    · exact Except.noConfusion h
    · exact Except.noConfusion h
  | timeLimit p =>
    simp only [processOpt] at h
    split at h
    · injection h with h'; subst h'; rfl
    · exact Except.noConfusion h
    · exact Except.noConfusion h

/-- Once the board is non-empty, or a `-b` option remains to be processed,
the option fold ends with a non-empty board. -/
theorem foldl_board_ne_empty :
    ∀ (opts : List Opt) (init cfg : Config),
      List.foldlM processOpt init opts = .ok cfg →
      ((∃ s, Opt.board s ∈ opts) ∨ init.board ≠ ∅) → cfg.board ≠ ∅ := by
  intro opts
  induction opts with
  | nil =>
    intro init cfg h hd
    simp only [List.foldlM_nil] at h
    injection h with h'
    subst h'
    rcases hd with ⟨s, hs⟩ | hb
    · exact absurd hs (List.not_mem_nil _)
    · exact hb
  | cons o rest ih =>
    intro init cfg h hd
    simp only [List.foldlM_cons] at h
    cases hpo : processOpt init o with
    | error e => rw [hpo] at h; exact Except.noConfusion h
    | ok mid =>
      rw [hpo] at h
      refine ih mid cfg h ?_
      rcases hd with ⟨s, hs⟩ | hb
      · rcases List.mem_cons.mp hs with heq | hrest
        · subst heq
          exact Or.inr (processOpt_board_set init mid s hpo)
        · exact Or.inl ⟨s, hrest⟩
      · by_cases hob : ∃ s, o = Opt.board s
        · obtain ⟨s, rfl⟩ := hob
          exact Or.inr (processOpt_board_set init mid s hpo)
        · refine Or.inr ?_
          rw [processOpt_board_other init mid o hpo
            (fun s hs => hob ⟨s, hs⟩)]
          exact hb

/-- Once the dead set is non-empty, or a `-d` option remains to be
processed, the option fold ends with a non-empty dead set. -/
theorem foldl_dead_ne_empty :
    ∀ (opts : List Opt) (init cfg : Config),
      List.foldlM processOpt init opts = .ok cfg →
      ((∃ s, Opt.dead s ∈ opts) ∨ init.dead ≠ ∅) → cfg.dead ≠ ∅ := by
  intro opts
  induction opts with
  | nil =>
    intro init cfg h hd
    simp only [List.foldlM_nil] at h
    injection h with h'
    subst h'
    rcases hd with ⟨s, hs⟩ | hb
    · exact absurd hs (List.not_mem_nil _)
    · exact hb
  | cons o rest ih =>
    intro init cfg h hd
    simp only [List.foldlM_cons] at h
    cases hpo : processOpt init o with
    | error e => rw [hpo] at h; exact Except.noConfusion h
    | ok mid =>
      rw [hpo] at h
      refine ih mid cfg h ?_
      rcases hd with ⟨s, hs⟩ | hb
      · rcases List.mem_cons.mp hs with heq | hrest
        · subst heq
          exact Or.inr (processOpt_dead_set init mid s hpo)
        · exact Or.inl ⟨s, hrest⟩
      · by_cases hob : ∃ s, o = Opt.dead s
        · obtain ⟨s, rfl⟩ := hob
          exact Or.inr (processOpt_dead_set init mid s hpo)
        · refine Or.inr ?_
          rw [processOpt_dead_other init mid o hpo
            (fun s hs => hob ⟨s, hs⟩)]
          exact hb

/-- C2: `get_ranges_from_argv` fails with the corresponding configuration
error when given fewer than 2 or more than 10 ranges, and accepts every
list of 2 through 10 ranges (whose ranges are individually valid,
i.e. non-empty). -/
theorem range_count_check :
    ∀ rs : List RangeStr,
      (rs.length < 2 → get_ranges_from_argv rs = .error .tooFewRanges) ∧
      (rs.length > 10 → get_ranges_from_argv rs = .error .tooManyRanges) ∧
      (2 ≤ rs.length → rs.length ≤ 10 → (∀ r ∈ rs, r.combos ≠ []) →
        get_ranges_from_argv rs = .ok rs) := by
  intro rs
  refine ⟨?_, ?_, ?_⟩
  · intro h
    simp [get_ranges_from_argv, h]
  · intro h
    have h2 : ¬ rs.length < 2 := by omega
    simp [get_ranges_from_argv, h2, h]
  · intro h2 h10 hne
    have h2' : ¬ rs.length < 2 := by omega
    have h10' : ¬ rs.length > 10 := by omega
    simp [get_ranges_from_argv, h2', h10', check_ranges_ok_of_nonempty rs hne]

/-- C2 witness: two valid ranges are accepted. -/
theorem range_count_check_witness :
    get_ranges_from_argv [rAA, rKK] = .ok [rAA, rKK] :=
  (range_count_check [rAA, rKK]).2.2 (by decide) (by decide) (by decide)

/-- C4: on a well-formed board argument, `get_cardmask` fails exactly when
the parsed mask is the zero mask (the parser's failure value on a
malformed or empty string) or the mask holds more than 5 cards; a
well-formed board of 1 to 5 cards is accepted and returned unchanged. -/
theorem board_mask_validation :
    ∀ s : CardStr, s.WF →
      ((get_cardmask s true).isOk = false ↔
        (maskOf s = ∅ ∨ 5 < (maskOf s).card)) ∧
      (maskOf s ≠ ∅ → (maskOf s).card ≤ 5 →
        get_cardmask s true = .ok (maskOf s)) := by
  intro s hwf
  unfold CardStr.WF at hwf
  cases hs : s.tokens with
  | none =>
    have hm : maskOf s = ∅ := by simp [maskOf, hs]
    constructor
    · simp [get_cardmask, hm, Except.isOk, Except.toBool]
    · intro hne _; exact absurd hm hne
  | some cs =>
    rw [hs] at hwf
    obtain ⟨hlen, hnd⟩ := hwf
    have hm : maskOf s = cs.toFinset := by simp [maskOf, hs]
    have hcard : (maskOf s).card = cs.length := by
      rw [hm]; exact List.toFinset_card_of_nodup hnd
    by_cases h0 : maskOf s = ∅
    · constructor
      · simp [get_cardmask, h0, Except.isOk, Except.toBool]
      · intro hne _; exact absurd h0 hne
    · have hlen5 : s.raw_len > 10 ↔ 5 < (maskOf s).card := by
        rw [hlen, hcard]; omega
      constructor
      · by_cases hbig : s.raw_len > 10
        · simp [get_cardmask, h0, hbig, Except.isOk, Except.toBool,
            hlen5.mp hbig, h0]
        · have : ¬ 5 < (maskOf s).card := fun hc => hbig (hlen5.mpr hc)
          simp [get_cardmask, h0, hbig, Except.isOk, Except.toBool, this]
      · intro _ hle
        have hbig : ¬ s.raw_len > 10 := fun hb => by
          have := hlen5.mp hb; omega
        simp [get_cardmask, h0, hbig]

/-- C4 witness: a well-formed 3-card board argument is accepted. -/
theorem board_mask_validation_witness :
    get_cardmask bdAs true = .ok (maskOf bdAs) :=
  (board_mask_validation bdAs (by exact ⟨rfl, by decide⟩)).2
    (by decide) (by decide)

/-- C10: the board and dead sets default to the empty mask when the
options are omitted, but whenever a board or dead option was explicitly
supplied and option processing succeeded, the resulting set is non-empty
(a string parsing to the zero mask is rejected as invalid). -/
theorem explicit_board_dead_nonempty :
    defaultConfig.board = ∅ ∧ defaultConfig.dead = ∅ ∧
    ∀ (opts : List Opt) (cfg : Config), processOpts opts = .ok cfg →
      ((∃ s, Opt.board s ∈ opts) → cfg.board ≠ ∅) ∧
      ((∃ s, Opt.dead s ∈ opts) → cfg.dead ≠ ∅) := by
  refine ⟨rfl, rfl, ?_⟩
  intro opts cfg h
  exact ⟨fun hex => foldl_board_ne_empty opts defaultConfig cfg h (Or.inl hex),
         fun hex => foldl_dead_ne_empty opts defaultConfig cfg h (Or.inl hex)⟩

/-- C10 witness: the explicitly supplied board `bdAs` leaves a non-empty
board in the configuration. -/
theorem explicit_board_dead_nonempty_witness : cfg3.board ≠ ∅ :=
  (explicit_board_dead_nonempty.2.2 opts3 cfg3 rfl).1
    ⟨bdAs, List.mem_singleton.mpr rfl⟩

/-- C1: when option processing yields Monte Carlo mode with margin 0 and
time limit 0, the driver fails with the infinite-simulation configuration
error, for every engine and every range list (the check runs before range
validation and before the engine); in every other configuration this
rejection never fires. -/
theorem infinite_config_rejected :
    ∀ (f : EngineFn) (opts : List Opt) (range_strs : List RangeStr) (cfg : Config),
      processOpts opts = .ok cfg →
      ((cfg.monte_carlo = true ∧ cfg.err_margin = 0 ∧ cfg.time_max = 0) →
        runMain f opts range_strs = .error .infiniteSim) ∧
      (¬(cfg.monte_carlo = true ∧ cfg.err_margin = 0 ∧ cfg.time_max = 0) →
        runMain f opts range_strs ≠ .error .infiniteSim) := by
  intro f opts rs cfg h
  constructor
  · intro hcond
    unfold runMain
    rw [h]
    dsimp only
    rw [if_pos hcond]
  · intro hcond
    unfold runMain
    rw [h]
    dsimp only
    rw [if_neg hcond]
    cases hr : get_ranges_from_argv rs with
    | error e =>
      dsimp only
      intro hcontr
      injection hcontr with he
      subst he
      rcases get_ranges_error_shape rs _ hr with h1 | h1 | ⟨raw, h1⟩ <;>
        exact ErrKind.noConfusion h1
    | ok ranges =>
      dsimp only
      cases hf : finishRun rs (f (ranges.map fun r => r.combos) cfg.board
          cfg.dead cfg.monte_carlo cfg.err_margin cfg.time_max) with
      | error e =>
        intro hcontr
        injection hcontr with he
        subst he
        exact ErrKind.noConfusion (finishRun_error_shape rs _ _ hf)
      | ok lines =>
        exact fun hcontr => Except.noConfusion hcontr

/-- C1 witness: the option list `--mc -e 0 -t 0` is rejected with the
infinite-simulation error. -/
theorem infinite_config_rejected_witness :
    runMain okEngine optsInf [] = .error .infiniteSim :=
  (infinite_config_rejected okEngine optsInf [] cfgInf rfl).1 ⟨rfl, rfl, rfl⟩

/-- C5: every configuration error the pre-engine phase raises (bad option,
infinite Monte Carlo configuration, bad range count, empty range) is the
driver's outcome for every engine: the diagnostic is reported and the
process exits with the failure status, and the engine's behaviour cannot
influence the outcome, so the computation is never entered. -/
theorem config_error_pre_engine :
    ∀ (opts : List Opt) (range_strs : List RangeStr) (e : ErrKind),
      preEngine opts range_strs = .error e →
      ∀ f : EngineFn,
        runMain f opts range_strs = .error e ∧
        exitStatus (runMain f opts range_strs) = 1 := by
  intro opts rs e h f
  unfold preEngine at h
  unfold runMain
  cases hp : processOpts opts with
  | error e' =>
    rw [hp] at h
    dsimp only at h
    injection h with h'
    subst h'
    exact ⟨rfl, rfl⟩
  | ok cfg =>
    rw [hp] at h
    dsimp only at h ⊢
    split at h
    next hcond =>
      rw [if_pos hcond]
      injection h with h'
      subst h'
      exact ⟨rfl, rfl⟩
    next hcond =>
      rw [if_neg hcond]
      cases hr : get_ranges_from_argv rs with
      | error e' =>
        rw [hr] at h
        dsimp only at h
        injection h with h'
        subst h'
        exact ⟨rfl, rfl⟩
      | ok ranges =>
        rw [hr] at h
        dsimp only at h
        exact Except.noConfusion h

/-- C5 witness: the empty request (no ranges) raises the too-few-ranges
configuration error and exits with failure status, engine regardless. -/
theorem config_error_pre_engine_witness :
    runMain okEngine [] [] = .error .tooFewRanges ∧
    exitStatus (runMain okEngine [] []) = 1 :=
  config_error_pre_engine [] [] .tooFewRanges rfl okEngine

/-- C3 counterexample: the range `rAA` (pocket aces) has a non-empty
combination list, but its only combination conflicts with the supplied
board `bdAs` (they share card 51), so the range is empty after filtering
out conflicts with the board and dead cards; yet the driver does not fail:
the run proceeds into the engine and completes successfully.  The driver
only ever tests `combinations().empty()` on the parsed range, before any
board/dead filtering. -/
theorem conflict_range_not_rejected :
    processOpts opts3 = .ok cfg3 ∧
    (rAA.combos.filter fun c => c ∩ (cfg3.board ∪ cfg3.dead) = ∅) = [] ∧
    rAA.combos ≠ [] ∧
    (runMain okEngine opts3 [rAA, rKK]).isOk = true :=
  ⟨rfl, rfl, by decide, rfl⟩

/-- C3 amended: a range whose combination list is empty as parsed (empty
or malformed range string) is a fatal input error raised before the engine
starts: the run fails identically for every engine.  (A range left empty
only by conflicts with the board/dead cards is not rejected by the driver;
see the counterexample.) -/
theorem empty_range_fatal :
    ∀ (rs : List RangeStr) (r : RangeStr), r ∈ rs → r.combos = [] →
      (get_ranges_from_argv rs).isOk = false ∧
      ∀ (opts : List Opt) (f g : EngineFn),
        runMain f opts rs = runMain g opts rs ∧
        (runMain f opts rs).isOk = false := by
  intro rs r hmem hc
  have hge := get_ranges_fails_of_empty_mem rs r hmem hc
  refine ⟨hge, ?_⟩
  intro opts f g
  unfold runMain
  cases hp : processOpts opts with
  | error e => exact ⟨rfl, rfl⟩
  | ok cfg =>
    dsimp only
    by_cases hcond : cfg.monte_carlo = true ∧ cfg.err_margin = 0 ∧ cfg.time_max = 0
    · simp only [if_pos hcond]
      exact ⟨trivial, rfl⟩
    · simp only [if_neg hcond]
      cases hr : get_ranges_from_argv rs with
      | error e => exact ⟨rfl, rfl⟩
      | ok ranges =>
        rw [hr] at hge
        simp [Except.isOk, Except.toBool] at hge

/-- C3 amended witness: a list containing a parsed-empty range fails
before the engine, identically for two different engines. -/
theorem empty_range_fatal_witness :
    (get_ranges_from_argv [rEmpty, rKK]).isOk = false ∧
    ∀ (opts : List Opt) (f g : EngineFn),
      runMain f opts [rEmpty, rKK] = runMain g opts [rEmpty, rKK] ∧
      (runMain f opts [rEmpty, rKK]).isOk = false :=
  empty_range_fatal [rEmpty, rKK] rEmpty (List.mem_cons_self rEmpty [rKK]) rfl

/-- C6 counterexample: the hint is surfaced on a run that never enabled
Monte Carlo (no options given, so the mode keeps its `false` default): an
exhaustive run cut off by the time limit (`timeoutEngine`, enumerateAll
set, progress below 1) makes the driver print the hint line, whose fixed
text recommends switching TO Monte Carlo (`Consider using monte-carlo with
--mc`), not exhaustive enumeration.  This refutes both halves of the
claim: the hint does not fire on cancelled Monte Carlo runs, and it does
not recommend the strategy that would have converged for the run it fires
on. -/
theorem mc_hint_counterexample :
    processOpts [] = .ok defaultConfig ∧ defaultConfig.monte_carlo = false ∧
    runMain timeoutEngine [] [rAA, rKK] =
      .ok [OutLine.header 2, .equityLine "AsAh" 0, .equityLine "KsKh" 0,
           .timedOutLine 30, .mcHint] := by
  refine ⟨rfl, rfl, ?_⟩
  norm_num [runMain, processOpts, List.foldlM, defaultConfig,
    get_ranges_from_argv, check_ranges, rAA, rKK, finishRun, printResults,
    timeoutEngine, calcTime, List.range_succ, pure, Except.pure]

/-- C6 amended: the `--mc` hint line is printed exactly when the run
stopped before convergence (progress below 1) and the result's
`enumerateAll` flag (exhaustive enumeration was used) is set; its fixed
text recommends switching to Monte Carlo mode. -/
theorem mc_hint_condition :
    ∀ (rs : List RangeStr) (r : EquityResult) (lines : List OutLine),
      printResults rs r = some lines →
      (OutLine.mcHint ∈ lines ↔ (r.progress < 1 ∧ r.enumerateAll = true)) := by
  intro rs r lines h
  unfold printResults at h
  split at h
  · injection h with h'
    subst h'
    by_cases hp : r.progress ≥ 1
    · rw [if_pos hp]
      simp [not_lt.mpr hp]
    · rw [if_neg hp]
      by_cases he : r.enumerateAll = true
      · rw [if_pos he]
        simp [not_le.mp hp, he]
      · rw [if_neg he]
        simp [he]
  · exact Option.noConfusion h

/-- C6 amended witness: on the timed-out exhaustive result `resTimeout`
the printed lines contain the hint. -/
theorem mc_hint_condition_witness : OutLine.mcHint ∈ linesTimeout :=
  (mc_hint_condition [rAA, rKK] resTimeout linesTimeout
      (by simp [printResults, resTimeout, linesTimeout, rAA, rKK, calcTime,
        List.range_succ])).2
    ⟨by simp [resTimeout], rfl⟩

/-- C7: a run whose result has progress below 1 is non-fatal: the printing
stage succeeds (exit status `EXIT_SUCCESS`), the timed-out report line is
printed, and every player's equity line is still printed. -/
theorem timeout_nonfatal :
    ∀ (rs : List RangeStr) (r : EquityResult),
      rs.length = r.players → r.progress < 1 →
      ∃ lines, finishRun rs r = .ok lines ∧
        exitStatus (finishRun rs r) = 0 ∧
        OutLine.timedOutLine (calcTime r) ∈ lines ∧
        ∀ i < r.players,
          OutLine.equityLine ((rs.getD i ⟨"", []⟩).raw)
            (r.equity.getD i 0) ∈ lines := by
  intro rs r hlen hp
  have hnp : ¬ r.progress ≥ 1 := not_le.mpr hp
  have h1 : finishRun rs r = .ok (OutLine.header r.players ::
      ((List.range r.players).map fun i =>
        OutLine.equityLine ((rs.getD i ⟨"", []⟩).raw) (r.equity.getD i 0)) ++
      (OutLine.timedOutLine (calcTime r) ::
        (if r.enumerateAll then [OutLine.mcHint] else []))) := by
    unfold finishRun printResults
    rw [if_pos hlen, if_neg hnp]
  refine ⟨_, h1, ?_, ?_, ?_⟩
  · rw [h1]; rfl
  · simp
  · intro i hi
    exact List.mem_cons_of_mem _ (List.mem_append_left _
      (List.mem_map_of_mem _ (List.mem_range.mpr hi)))

/-- C7 witness: the timed-out result `resTimeout` on two ranges. -/
theorem timeout_nonfatal_witness :
    ∃ lines, finishRun [rAA, rKK] resTimeout = .ok lines ∧
      exitStatus (finishRun [rAA, rKK] resTimeout) = 0 ∧
      OutLine.timedOutLine (calcTime resTimeout) ∈ lines ∧
      ∀ i < resTimeout.players,
        OutLine.equityLine (([rAA, rKK].getD i ⟨"", []⟩).raw)
          (resTimeout.equity.getD i 0) ∈ lines :=
  timeout_nonfatal [rAA, rKK] resTimeout rfl (by simp [resTimeout])

/-- C8 counterexample: a negative margin and a negative time limit are
parsed by `stod` and stored without any sign check; the whole request then
runs to completion, so negative values are not rejected as configuration
errors. -/
theorem negative_margin_accepted :
    ((-1 : ℚ) < 0) ∧
    processOpt defaultConfig (Opt.margin (.ok (-1))) =
      .ok { defaultConfig with err_margin := -1 } ∧
    processOpt defaultConfig (Opt.timeLimit (.ok (-1))) =
      .ok { defaultConfig with time_max := -1 } ∧
    (runMain okEngine [Opt.margin (.ok (-1)), Opt.timeLimit (.ok (-1))]
      [rAA, rKK]).isOk = true := by
  refine ⟨by norm_num, rfl, rfl, rfl⟩

/-- C8 amended: a margin or time-limit argument is accepted exactly when
the numeric parse succeeds, and the parsed value is stored unchanged
(without any sign check); non-numeric strings and out-of-range values are
rejected as configuration errors.  0 keeps its no-bound meaning through
the infinite-simulation check. -/
theorem margin_time_parse :
    ∀ (cfg : Config) (p : StodResult),
      ((processOpt cfg (.margin p)).isOk = true ↔ ∃ q, p = .ok q) ∧
      ((processOpt cfg (.timeLimit p)).isOk = true ↔ ∃ q, p = .ok q) ∧
      ∀ q, p = .ok q →
        processOpt cfg (.margin p) = .ok { cfg with err_margin := q } ∧
        processOpt cfg (.timeLimit p) = .ok { cfg with time_max := q } := by
  intro cfg p
  cases p with
  | ok q =>
    refine ⟨by simp [processOpt, Except.isOk, Except.toBool],
      by simp [processOpt, Except.isOk, Except.toBool], ?_⟩
    intro q' hq'
    injection hq' with hqq
    subst hqq
    exact ⟨rfl, rfl⟩
  | outOfRange =>
    refine ⟨by simp [processOpt, Except.isOk, Except.toBool],
      by simp [processOpt, Except.isOk, Except.toBool], ?_⟩
    intro q hq
    exact StodResult.noConfusion hq
  | invalid =>
    refine ⟨by simp [processOpt, Except.isOk, Except.toBool],
      by simp [processOpt, Except.isOk, Except.toBool], ?_⟩
    intro q hq
    exact StodResult.noConfusion hq

/-- C8 amended witness: the parsed value -3 is accepted for both options
and stored unchanged. -/
theorem margin_time_parse_witness :
    processOpt defaultConfig (Opt.margin (.ok (-3))) =
      .ok { defaultConfig with err_margin := -3 } ∧
    processOpt defaultConfig (Opt.timeLimit (.ok (-3))) =
      .ok { defaultConfig with time_max := -3 } :=
  (margin_time_parse defaultConfig (.ok (-3))).2.2 (-3) rfl

/-- C9: on every run that reaches the printing stage successfully, the
`assert` guarantees the result's player count equals the number of range
arguments, and the (i+1)-st output line pairs the i-th range argument (in
command-line order) with the i-th entry of the result's equity array. -/
theorem players_pairing :
    ∀ (rs : List RangeStr) (r : EquityResult) (lines : List OutLine),
      finishRun rs r = .ok lines →
      rs.length = r.players ∧
      ∀ i < r.players,
        lines.get? (i + 1) =
          some (OutLine.equityLine ((rs.getD i ⟨"", []⟩).raw)
            (r.equity.getD i 0)) := by
  intro rs r lines h
  unfold finishRun at h
  cases hpr : printResults rs r with
  | none => rw [hpr] at h; exact Except.noConfusion h
  | some L =>
    rw [hpr] at h
    dsimp only at h
    injection h with h'
    subst h'
    unfold printResults at hpr
    split at hpr
    next hlen =>
      injection hpr with hpr'
      subst hpr'
      refine ⟨hlen, ?_⟩
      intro i hi
      rw [List.get?_append (by simp; omega)]
      simp only [List.get?_cons_succ]
      rw [List.get?_map, List.get?_range hi]
      rfl
    next => exact Option.noConfusion hpr

/-- C9 witness: the completed result `resOk` on two ranges. -/
theorem players_pairing_witness :
    ([rAA, rKK] : List RangeStr).length = resOk.players ∧
    ∀ i < resOk.players,
      linesOk.get? (i + 1) =
        some (OutLine.equityLine (([rAA, rKK].getD i ⟨"", []⟩).raw)
          (resOk.equity.getD i 0)) :=
  players_pairing [rAA, rKK] resOk linesOk
    (by simp [finishRun, printResults, resOk, linesOk, rAA, rKK, calcTime,
      List.range_succ])

end TermHeval
